import Mathlib

/-!
Verification of the MIL-1750A converter library (src/lib.rs) against its
natural-language specification.

Shallow embedding notes.  The library is six pure transforms between native
IEEE-754 floats (f16/f32/f64) and MIL-1750A words (u16/u32/u64).  Machine
words are embedded as natural numbers manipulated with the same shift, mask
and or operations as the source; signed machine integers are embedded as
integers with explicit mod-2^w wrapping at the points where the source casts.
Floating-point values are embedded as exact rationals together with the three
IEEE special values (plus and minus infinity, NaN), and every floating-point
operation of the source (multiplication, addition, powi, round, casts to
integers) is modelled by exact rational arithmetic followed by the IEEE
round-to-nearest-even rounding step of the corresponding format, including
overflow to infinity and the zero-times-infinity-is-NaN rule.  The one
approximation allowed: the expression ceil(log2 x) computed by the source
through the approximate f32/f64 log2 is embedded as the exact integer
ceiling logarithm Int.clog 2 x.  A sub-ulp library log2 agrees with this
exact ceiling at every exact power of two (the true value is representable,
so faithful rounding returns it) and whenever the input is at least a factor
1 + 2^(-10) above the next-lower power of two (the library error, below
2^(-16) for exponents of magnitude at most 128, cannot then drag the value
down across the integer below).  Just above a power of two the library
value can round down to that integer and the program exponent comes out one
lower than Int.clog; every concrete input exercised below lies in the
agreement zone, and the universally quantified encoder sign-symmetry
theorem carries the factor-above-a-power-of-two hypothesis explicitly to
stay inside it.
-/

/-- Floor of a rational as an integer, stated directly on the numerator and
denominator so that the kernel can evaluate it (see qfloor_eq). -/
def qfloor (q : ℚ) : ℤ := q.num.fdiv q.den

/-- Ceiling of a rational as an integer, kernel-evaluable. -/
def qceil (q : ℚ) : ℤ := -qfloor (-q)

/-- Fractional part of a rational, kernel-evaluable. -/
def qfract (q : ℚ) : ℚ := q - qfloor q

/-- Round-to-nearest, ties to even: the integer nearest to q, picking the even
neighbour when q is exactly half way. -/
def rne (q : ℚ) : ℤ :=
  if qfract q < 1/2 then qfloor q
  else if 1/2 < qfract q then qfloor q + 1
  else if qfloor q % 2 = 0 then qfloor q else qfloor q + 1

/-- Rust round(): round half away from zero, as performed by f32::round and
f64::round on a finite value. -/
def rustRoundQ (q : ℚ) : ℚ :=
  if 0 ≤ q then (qfloor (q + 1/2) : ℤ) else (qceil (q - 1/2) : ℤ)

/-- Truncation toward zero, the integer part used by the Rust float-to-integer
cast. -/
def ratTrunc (q : ℚ) : ℤ := if 0 ≤ q then qfloor q else qceil q

/-- A floating-point value of any binary IEEE format: an exact rational for the
finite values, or one of the special values. -/
inductive Fl where
  | finite (q : ℚ)
  | pinf
  | ninf
  | nan
deriving DecidableEq

/-- Round a real (rational) value to an IEEE binary format with prec
significand bits, minimal subnormal exponent eminS (ulp never below 2^eminS)
and maximal exponent emax (finite magnitudes below 2^(emax+1)), using
round-to-nearest ties-to-even and overflow to infinity. -/
def roundToFmt (prec : ℕ) (eminS emax : ℤ) (q : ℚ) : Fl :=
  if q = 0 then .finite 0
  else
    let s : ℤ := max eminS (Int.log 2 |q| + 1 - prec)
    let r : ℚ := (rne (q / 2 ^ s) : ℚ) * 2 ^ s
    if 2 ^ (emax + 1) ≤ |r| then (if 0 < q then .pinf else .ninf) else .finite r

/-- IEEE multiplication in the given format, on the embedded values. -/
def Fl.mul (prec : ℕ) (eminS emax : ℤ) : Fl → Fl → Fl
  | .nan, _ => .nan
  | _, .nan => .nan
  | .finite x, .finite y => roundToFmt prec eminS emax (x * y)
  | .finite x, .pinf => if x = 0 then .nan else if 0 < x then .pinf else .ninf
  | .finite x, .ninf => if x = 0 then .nan else if 0 < x then .ninf else .pinf
  | .pinf, .finite y => if y = 0 then .nan else if 0 < y then .pinf else .ninf
  | .ninf, .finite y => if y = 0 then .nan else if 0 < y then .ninf else .pinf
  | .pinf, .pinf => .pinf
  | .pinf, .ninf => .ninf
  | .ninf, .pinf => .ninf
  | .ninf, .ninf => .pinf

/-- IEEE addition in the given format, on the embedded values. -/
def Fl.add (prec : ℕ) (eminS emax : ℤ) : Fl → Fl → Fl
  | .nan, _ => .nan
  | _, .nan => .nan
  | .pinf, .ninf => .nan
  | .ninf, .pinf => .nan
  | .pinf, _ => .pinf
  | _, .pinf => .pinf
  | .ninf, _ => .ninf
  | _, .ninf => .ninf
  | .finite x, .finite y => roundToFmt prec eminS emax (x + y)

/-- Negation of an embedded float. -/
def Fl.neg : Fl → Fl
  | .finite q => .finite (-q)
  | .pinf => .ninf
  | .ninf => .pinf
  | .nan => .nan

/-- Rust round() lifted to the embedded values (round of an infinity is that
infinity, round of NaN is NaN). -/
def rustRoundFl : Fl → Fl
  | .finite q => .finite (rustRoundQ q)
  | .pinf => .pinf
  | .ninf => .ninf
  | .nan => .nan

/-- Rust cast of a float to i32: truncate toward zero, saturating at the i32
bounds; NaN casts to 0. -/
def castI32sat : Fl → ℤ
  | .finite q => max (-(2 ^ 31)) (min (2 ^ 31 - 1) (ratTrunc q))
  | .pinf => 2 ^ 31 - 1
  | .ninf => -(2 ^ 31)
  | .nan => 0

/-- Rust cast of a float to i64: truncate toward zero, saturating at the i64
bounds; NaN casts to 0. -/
def castI64sat : Fl → ℤ
  | .finite q => max (-(2 ^ 63)) (min (2 ^ 63 - 1) (ratTrunc q))
  | .pinf => 2 ^ 63 - 1
  | .ninf => -(2 ^ 63)
  | .nan => 0

/-- The f32 value of 2f32.powi(k): exact for -149 <= k <= 127, zero below the
subnormal range, infinity above emax. -/
def pow2f32 (k : ℤ) : Fl :=
  if 127 < k then .pinf else if k < -149 then .finite 0 else .finite (2 ^ k)

/-- The f64 value of 2f64.powi(k): exact for -1074 <= k <= 1023, zero below
the subnormal range, infinity above emax. -/
def pow2f64 (k : ℤ) : Fl :=
  if 1023 < k then .pinf else if k < -1074 then .finite 0 else .finite (2 ^ k)

/-- Two-complement wrap of an integer into the i32 range, the release-mode
behaviour of Rust i32 arithmetic overflow. -/
def wrap32 (z : ℤ) : ℤ := (z + 2 ^ 31) % 2 ^ 32 - 2 ^ 31

/-- Model of input.abs().log2().ceil() as i32 for a finite input: the exact
integer ceiling log base 2, saturated into the i32 range by the
float-to-int cast; log2(0) is minus infinity, which the cast saturates to
i32::MIN.  The source computes the ceiling of an approximate float log2;
the two agree at exact powers of two and whenever the input is at least a
factor 1 + 2^(-10) above the next-lower power of two (see the file header),
and theorems quantifying over encoder inputs restrict to that zone. -/
def ceilLog2sat (x : ℚ) : ℤ :=
  if x = 0 then -(2 ^ 31) else max (-(2 ^ 31)) (min (2 ^ 31 - 1) (Int.clog 2 |x|))

/-- Low 16 bits of an integer, the Rust as-u16 cast. -/
def toU16 (z : ℤ) : ℕ := (z % 2 ^ 16).toNat

/-- Low 32 bits of an integer, the Rust as-u32 cast. -/
def toU32 (z : ℤ) : ℕ := (z % 2 ^ 32).toNat

/-- Low 8 bits of an integer, the Rust as-u8 cast. -/
def toU8 (z : ℤ) : ℕ := (z % 2 ^ 8).toNat

/-- The rounded mantissa of the 16-bit encoder before the boundary check:
(f32_input * 2f32.powi(9 - exponent)).round() as i32, with
exponent = f32_input.abs().log2().ceil() as i32.  The f16 input is widened
to f32 exactly, so the encoder input is embedded directly as the exact
rational value of the float. -/
def f16_to_1750a_m0 (x : ℚ) : ℤ :=
  castI32sat (rustRoundFl (Fl.mul 24 (-149) 127 (.finite x)
    (pow2f32 (wrap32 (9 - ceilLog2sat x)))))

/-- Mantissa and exponent of the 16-bit encoder after its boundary check
(source: if mantissa == 32768 halve it and bump the exponent). -/
def f16_to_1750a_me (x : ℚ) : ℤ × ℤ :=
  let m := f16_to_1750a_m0 x
  let e := ceilLog2sat x
  if m = 32768 then (m / 2, e + 1) else (m, e)

/-- Embedding of f16_to_1750a from src/lib.rs: pack
((mantissa as u16) & 0x3FF) << 6 with (exponent as u16) & 0x3F. -/
def f16_to_1750a (x : ℚ) : ℕ :=
  let p := f16_to_1750a_me x
  (((toU16 p.1 &&& 0x3FF) <<< 6) % 2 ^ 16) ||| (toU16 p.2 &&& 0x3F)

/-- The rounded mantissa of the 32-bit encoder before the boundary check:
(input * 2f32.powi(23 - exponent)).round() as i32. -/
def f32_to_1750a_m0 (x : ℚ) : ℤ :=
  castI32sat (rustRoundFl (Fl.mul 24 (-149) 127 (.finite x)
    (pow2f32 (wrap32 (23 - ceilLog2sat x)))))

/-- Mantissa and exponent of the 32-bit encoder after its boundary check
(source: if mantissa == 8388608 halve it and bump the exponent). -/
def f32_to_1750a_me (x : ℚ) : ℤ × ℤ :=
  let m := f32_to_1750a_m0 x
  let e := ceilLog2sat x
  if m = 8388608 then (m / 2, e + 1) else (m, e)

/-- Embedding of f32_to_1750a from src/lib.rs: zero maps to the zero word,
otherwise pack (mantissa as u32) << 8 with (exponent as u32) & 0xFF and set
bit 31 when the input is negative. -/
def f32_to_1750a (x : ℚ) : ℕ :=
  if x = 0 then 0
  else
    let p := f32_to_1750a_me x
    ((toU32 p.1 <<< 8) % 2 ^ 32) ||| (toU32 p.2 &&& 0xFF) |||
      (if x < 0 then 0x80000000 else 0)

/-- The rounded mantissa of the 48-bit encoder before the boundary check:
(input * 2f64.powi(39 - exponent)).round() as i64. -/
def f48_to_1750a_m0 (x : ℚ) : ℤ :=
  castI64sat (rustRoundFl (Fl.mul 53 (-1074) 1023 (.finite x)
    (pow2f64 (wrap32 (39 - ceilLog2sat x)))))

/-- Mantissa and exponent of the 48-bit encoder after its boundary check
(source: if mantissa == 549755813888 halve it and bump the exponent). -/
def f48_to_1750a_me (x : ℚ) : ℤ × ℤ :=
  let m := f48_to_1750a_m0 x
  let e := ceilLog2sat x
  if m = 549755813888 then (m / 2, e + 1) else (m, e)

/-- Embedding of f48_to_1750a from src/lib.rs: zero maps to the zero word,
otherwise split the mantissa into ((mantissa >> 16) & 0xFFFFFF) as u32 (an
arithmetic shift, i.e. floor division) and (mantissa & 0xFFFF) as u16, pack
them at bits 47..24 and 15..0 with (exponent as u8) at bits 23..16, and set
bit 47 when the input is negative. -/
def f48_to_1750a (x : ℚ) : ℕ :=
  if x = 0 then 0
  else
    let p := f48_to_1750a_me x
    let mantissa1 : ℕ := ((p.1 / 2 ^ 16) % 2 ^ 24).toNat
    let mantissa2 : ℕ := (p.1 % 2 ^ 16).toNat
    (mantissa1 <<< 24) ||| (toU8 p.2 <<< 16) ||| mantissa2 |||
      (if x < 0 then 0x800000000000 else 0)

/-- Narrow an f32 value to f16, the Rust f16::from_f32: finite values are
rounded to the f16 format, the special values pass through. -/
def Fl.toF16 : Fl → Fl
  | .finite q => roundToFmt 11 (-24) 15 q
  | .pinf => .pinf
  | .ninf => .ninf
  | .nan => .nan

/-- Embedding of m1750a_to_16flt from src/lib.rs: mantissa is the unsigned
field (input >> 6) & 0x3FF, exponent the unsigned field input & 0x3F, and the
result is f16::from_f32(mantissa * 2f32.powi(exponent - 9)). -/
def m1750a_to_16flt (w : ℕ) : Fl :=
  Fl.toF16 (Fl.mul 24 (-149) 127 (.finite (((w >>> 6) &&& 0x3FF : ℕ) : ℚ))
    (pow2f32 ((((w &&& 0x3F : ℕ) : ℤ)) - 9)))

/-- Embedding of m1750a_to_32flt from src/lib.rs: mantissa field
(input >> 8) & 0xFFFFFF converted to a signed two-complement value via
-(((!mantissa & 0xFFFFFF) + 1) as i32) when bit 23 is set, exponent the
unsigned field input & 0xFF, result (signed_mantissa as f32) *
2f32.powi((exponent as i32) - 23). -/
def m1750a_to_32flt (w : ℕ) : Fl :=
  let mantissa : ℕ := (w >>> 8) &&& 0xFFFFFF
  let expo : ℕ := w &&& 0xFF
  let signed : ℤ :=
    if mantissa &&& 0x800000 ≠ 0
      then -(((((2 ^ 32 - 1 - mantissa) &&& 0xFFFFFF) + 1 : ℕ) : ℤ))
      else (mantissa : ℤ)
  Fl.mul 24 (-149) 127 (.finite (signed : ℚ)) (pow2f32 ((expo : ℤ) - 23))

/-- Embedding of m1750a_to_48flt from src/lib.rs: unsigned fields
mantissa1 = (input >> 24) & 0xFFFFFF, mantissa2 = input & 0xFFFF,
exponent = ((input >> 16) & 0xFF) as i32; the result is
mantissa1 * 2^(exponent - 23) + mantissa2 * 2^(exponent - 39) in f64
arithmetic.  The dedicated sign bit 47 is never read. -/
def m1750a_to_48flt (w : ℕ) : Fl :=
  let m1 : ℕ := (w >>> 24) &&& 0xFFFFFF
  let m2 : ℕ := w &&& 0xFFFF
  let e : ℤ := ((w >>> 16) &&& 0xFF : ℕ)
  Fl.add 53 (-1074) 1023
    (Fl.mul 53 (-1074) 1023 (.finite (m1 : ℚ)) (pow2f64 (e - 23)))
    (Fl.mul 53 (-1074) 1023 (.finite (m2 : ℚ)) (pow2f64 (e - 39)))

/-- The exact rational value decoded by the 48-bit decoder (its f64
arithmetic is exact; see m1750a_to_48flt_eq below). -/
def decode48val (w : ℕ) : ℚ :=
  (((w >>> 24) &&& 0xFFFFFF : ℕ) : ℚ) * 2 ^ ((((w >>> 16) &&& 0xFF : ℕ) : ℤ) - 23)
    + ((w &&& 0xFFFF : ℕ) : ℚ) * 2 ^ ((((w >>> 16) &&& 0xFF : ℕ) : ℤ) - 39)

/-- Exponent field of a 32-bit MIL-1750A word, bits 7..0. -/
def specExpField32 (w : ℕ) : ℕ := w &&& 0xFF

/-- Mantissa field of a 32-bit MIL-1750A word, bits 31..8. -/
def specManField32 (w : ℕ) : ℕ := (w >>> 8) &&& 0xFFFFFF

/-- Sign bit of a 32-bit MIL-1750A word, bit 31. -/
def specSignBit32 (w : ℕ) : ℕ := (w >>> 31) &&& 1

/-- Not negative: a finite non-negative value, or positive infinity, or NaN
(which carries no sign). -/
def Fl.Nonneg : Fl → Prop
  | .finite q => 0 ≤ q
  | .pinf => True
  | .ninf => False
  | .nan => True

instance (x : Fl) : Decidable x.Nonneg := by
  cases x <;> simp [Fl.Nonneg] <;> infer_instance

/-! Bridge lemmas between the kernel-evaluable rounding primitives and the
Mathlib floor/ceil API. -/

theorem qfloor_eq (q : ℚ) : qfloor q = ⌊q⌋ := by
  rw [Rat.floor_def, qfloor]
  exact Int.fdiv_eq_ediv _ (by positivity)

theorem qceil_eq (q : ℚ) : qceil q = ⌈q⌉ := by
  rw [qceil, qfloor_eq, Int.floor_neg, neg_neg]

theorem qfract_eq (q : ℚ) : qfract q = Int.fract q := by
  rw [qfract, qfloor_eq, Int.fract]

theorem rne_intCast (n : ℤ) : rne (n : ℚ) = n := by
  unfold rne
  rw [qfract_eq, qfloor_eq, Int.fract_intCast, Int.floor_intCast]
  norm_num

theorem rne_nonneg (q : ℚ) (h : 0 ≤ q) : 0 ≤ rne q := by
  have h0 : 0 ≤ qfloor q := by
    rw [qfloor_eq]; exact Int.le_floor.mpr (by exact_mod_cast h)
  unfold rne
  split_ifs <;> omega

theorem rne_le (q : ℚ) : (rne q : ℚ) ≤ q + 1/2 := by
  have hq : (⌊q⌋ : ℚ) + Int.fract q = q := Int.floor_add_fract q
  have h0 : 0 ≤ Int.fract q := Int.fract_nonneg q
  have h1 : Int.fract q < 1 := Int.fract_lt_one q
  unfold rne
  rw [qfract_eq, qfloor_eq]
  split_ifs with a1 a2 a3 <;> push_cast <;> linarith

theorem le_rne (q : ℚ) : q - 1/2 ≤ (rne q : ℚ) := by
  have hq : (⌊q⌋ : ℚ) + Int.fract q = q := Int.floor_add_fract q
  have h0 : 0 ≤ Int.fract q := Int.fract_nonneg q
  have h1 : Int.fract q < 1 := Int.fract_lt_one q
  unfold rne
  rw [qfract_eq, qfloor_eq]
  split_ifs with a1 a2 a3 <;> push_cast <;> linarith

theorem rne_neg (q : ℚ) : rne (-q) = -rne q := by
  rcases eq_or_ne (Int.fract q) 0 with h0 | h0
  · have hq : ((⌊q⌋ : ℚ)) = q := by
      have := Int.floor_add_fract q; rw [h0, add_zero] at this; exact this
    rw [← hq, ← Int.cast_neg, rne_intCast, rne_intCast]
  · have hf0 : 0 < Int.fract q := lt_of_le_of_ne (Int.fract_nonneg q) (Ne.symm h0)
    have hf1 : Int.fract q < 1 := Int.fract_lt_one q
    have hfneg : Int.fract (-q) = 1 - Int.fract q := Int.fract_neg h0
    have hceil : ⌈q⌉ = ⌊q⌋ + 1 := by
      have hlt : (⌊q⌋ : ℚ) < q := by
        have := Int.floor_add_fract q; linarith
      have hle : ⌈q⌉ ≤ ⌊q⌋ + 1 := Int.ceil_le_floor_add_one q
      have hgt : ⌊q⌋ < ⌈q⌉ := by
        have h2 : (⌊q⌋ : ℚ) < (⌈q⌉ : ℚ) := lt_of_lt_of_le hlt (Int.le_ceil q)
        exact_mod_cast h2
      omega
    have hfl : ⌊-q⌋ = -⌊q⌋ - 1 := by rw [Int.floor_neg, hceil]; ring
    rcases lt_trichotomy (Int.fract q) (1/2 : ℚ) with hc | hc | hc
    · have hrq : rne q = ⌊q⌋ := by
        unfold rne; rw [qfract_eq, qfloor_eq, if_pos hc]
      have hrnq : rne (-q) = -⌊q⌋ := by
        unfold rne
        rw [qfract_eq, qfloor_eq, hfneg, hfl, if_neg (by linarith),
          if_pos (by linarith)]
        ring
      rw [hrq, hrnq]
    · have hrq : rne q = if ⌊q⌋ % 2 = 0 then ⌊q⌋ else ⌊q⌋ + 1 := by
        unfold rne
        rw [qfract_eq, qfloor_eq, hc, if_neg (by norm_num), if_neg (by norm_num)]
      have hrnq : rne (-q) = if (-⌊q⌋ - 1) % 2 = 0 then -⌊q⌋ - 1 else -⌊q⌋ := by
        unfold rne
        rw [qfract_eq, qfloor_eq, hfneg, hfl, hc, if_neg (by norm_num),
          if_neg (by norm_num)]
        split_ifs <;> ring
      rw [hrq, hrnq]
      split_ifs <;> omega
    · have hrq : rne q = ⌊q⌋ + 1 := by
        unfold rne
        rw [qfract_eq, qfloor_eq, if_neg (by linarith), if_pos hc]
      have hrnq : rne (-q) = -⌊q⌋ - 1 := by
        unfold rne
        rw [qfract_eq, qfloor_eq, hfneg, hfl, if_pos (by linarith)]
      rw [hrq, hrnq]
      ring

theorem rustRoundQ_intCast (n : ℤ) : rustRoundQ (n : ℚ) = n := by
  unfold rustRoundQ
  split_ifs with h
  · rw [qfloor_eq]
    have : ⌊(n : ℚ) + 1/2⌋ = n :=
      Int.floor_eq_iff.mpr ⟨by linarith, by linarith⟩
    rw [this]
  · rw [qceil_eq]
    have : ⌈(n : ℚ) - 1/2⌉ = n :=
      Int.ceil_eq_iff.mpr ⟨by linarith, by linarith⟩
    rw [this]

theorem rustRoundQ_neg (q : ℚ) : rustRoundQ (-q) = -rustRoundQ q := by
  rcases lt_trichotomy q 0 with h | h | h
  · have h1 : ¬((0:ℚ) ≤ q) := not_le.mpr h
    have h2 : (0:ℚ) ≤ -q := by linarith
    unfold rustRoundQ
    rw [if_pos h2, if_neg h1]
    unfold qceil
    push_cast
    have h3 : -(q - 1/2) = -q + 1/2 := by ring
    rw [h3]
    ring
  · subst h
    show rustRoundQ (-0) = -rustRoundQ 0
    rw [neg_zero]
    have h0 : rustRoundQ 0 = ((0:ℤ) : ℚ) := by exact_mod_cast rustRoundQ_intCast 0
    rw [h0]
    norm_num
  · have h1 : (0:ℚ) ≤ q := le_of_lt h
    have h2 : ¬((0:ℚ) ≤ -q) := by rw [not_le]; linarith
    unfold rustRoundQ
    rw [if_neg h2, if_pos h1]
    unfold qceil
    push_cast
    have h3 : -(-q - 1/2) = q + 1/2 := by ring
    rw [h3]

theorem rustRoundQ_int (q : ℚ) : ∃ n : ℤ, rustRoundQ q = (n : ℚ) := by
  unfold rustRoundQ
  split_ifs <;> exact ⟨_, rfl⟩

theorem rustRoundQ_nonneg (q : ℚ) (h : 0 ≤ q) : 0 ≤ rustRoundQ q := by
  unfold rustRoundQ
  rw [if_pos h, qfloor_eq]
  have : (0:ℤ) ≤ ⌊q + 1/2⌋ := Int.le_floor.mpr (by push_cast; linarith)
  exact_mod_cast this

theorem rustRoundQ_le (q : ℚ) : rustRoundQ q ≤ q + 1/2 := by
  unfold rustRoundQ
  split_ifs with h
  · rw [qfloor_eq]; exact Int.floor_le _
  · rw [qceil_eq]
    have := Int.ceil_lt_add_one (q - 1/2)
    linarith

theorem le_rustRoundQ (q : ℚ) : q - 1/2 ≤ rustRoundQ q := by
  unfold rustRoundQ
  split_ifs with h
  · rw [qfloor_eq]
    have := Int.lt_floor_add_one (q + 1/2)
    linarith
  · rw [qceil_eq]
    exact Int.le_ceil _

theorem ratTrunc_intCast (n : ℤ) : ratTrunc (n : ℚ) = n := by
  unfold ratTrunc
  split_ifs with h
  · rw [qfloor_eq, Int.floor_intCast]
  · rw [qceil_eq, Int.ceil_intCast]

theorem ratTrunc_neg (q : ℚ) : ratTrunc (-q) = -ratTrunc q := by
  rcases lt_trichotomy q 0 with h | h | h
  · have h1 : ¬((0:ℚ) ≤ q) := not_le.mpr h
    have h2 : (0:ℚ) ≤ -q := by linarith
    unfold ratTrunc
    rw [if_pos h2, if_neg h1]
    unfold qceil
    ring
  · subst h
    rw [neg_zero]
    have h0 : ratTrunc 0 = ((0:ℤ)) := by exact_mod_cast ratTrunc_intCast 0
    rw [h0]
    ring
  · have h1 : (0:ℚ) ≤ q := le_of_lt h
    have h2 : ¬((0:ℚ) ≤ -q) := by rw [not_le]; linarith
    unfold ratTrunc
    rw [if_neg h2, if_pos h1]
    unfold qceil
    rw [neg_neg]

theorem castI32sat_intCast (n : ℤ) (h1 : -(2 ^ 31) ≤ n) (h2 : n ≤ 2 ^ 31 - 1) :
    castI32sat (.finite (n : ℚ)) = n := by
  show max (-(2 ^ 31)) (min (2 ^ 31 - 1) (ratTrunc (n : ℚ))) = n
  rw [ratTrunc_intCast]
  omega

theorem castI64sat_intCast (n : ℤ) (h1 : -(2 ^ 63) ≤ n) (h2 : n ≤ 2 ^ 63 - 1) :
    castI64sat (.finite (n : ℚ)) = n := by
  show max (-(2 ^ 63)) (min (2 ^ 63 - 1) (ratTrunc (n : ℚ))) = n
  rw [ratTrunc_intCast]
  omega

theorem Fl.mul_finite_finite (p : ℕ) (a b : ℤ) (x y : ℚ) :
    Fl.mul p a b (.finite x) (.finite y) = roundToFmt p a b (x * y) := rfl

theorem Fl.add_finite_finite (p : ℕ) (a b : ℤ) (x y : ℚ) :
    Fl.add p a b (.finite x) (.finite y) = roundToFmt p a b (x + y) := rfl

theorem roundToFmt_zero (p : ℕ) (a b : ℤ) : roundToFmt p a b 0 = .finite 0 := by
  simp [roundToFmt]

/-- Exactness of the format rounding: a value n * 2^t whose significand n fits
in prec bits, whose ulp exponent t is at least the minimal subnormal exponent,
and whose magnitude stays below the overflow threshold, is returned unchanged.
This captures the IEEE fact that in-range p-bit dyadics are exact. -/
theorem roundToFmt_exact (p : ℕ) (a b t n : ℤ)
    (hn : |n| < 2 ^ p) (ht : a ≤ t) (hb : (p : ℤ) + t ≤ b + 1) :
    roundToFmt p a b ((n : ℚ) * 2 ^ t) = .finite ((n : ℚ) * 2 ^ t) := by
  rcases eq_or_ne n 0 with rfl | hn0
  · simp [roundToFmt]
  · have h2t : (0:ℚ) < 2 ^ t := by positivity
    have hq0 : ((n : ℚ) * 2 ^ t) ≠ 0 := by
      exact mul_ne_zero (Int.cast_ne_zero.mpr hn0) (ne_of_gt h2t)
    simp only [roundToFmt, if_neg hq0]
    have habs : |(n : ℚ) * 2 ^ t| = ((|n| : ℤ) : ℚ) * 2 ^ t := by
      rw [abs_mul, abs_of_pos h2t, Int.cast_abs]
    have habs_pos : 0 < |(n : ℚ) * 2 ^ t| := abs_pos.mpr hq0
    have hqlt : |(n : ℚ) * 2 ^ t| < 2 ^ ((p : ℤ) + t) := by
      rw [habs, zpow_add₀ (by norm_num : (2:ℚ) ≠ 0)]
      have hcast : ((|n| : ℤ) : ℚ) < (2:ℚ) ^ ((p : ℤ)) := by
        have h1 : ((|n| : ℤ) : ℚ) < ((2 ^ p : ℤ) : ℚ) := by exact_mod_cast hn
        have h2 : ((2 ^ p : ℤ) : ℚ) = (2:ℚ) ^ ((p : ℤ)) := by
          push_cast
          rw [zpow_natCast]
        rw [← h2]
        exact h1
      exact mul_lt_mul_of_pos_right hcast h2t
    have hL : Int.log 2 |(n : ℚ) * 2 ^ t| < (p : ℤ) + t := by
      refine (Int.lt_zpow_iff_log_lt (by norm_num) habs_pos).mp ?_
      exact_mod_cast hqlt
    set s : ℤ := max a (Int.log 2 |(n : ℚ) * 2 ^ t| + 1 - p) with hs
    have hst : s ≤ t := by
      apply max_le ht
      omega
    set d : ℕ := (t - s).toNat with hd
    have hdz : (d : ℤ) = t - s := Int.toNat_of_nonneg (by omega)
    have hpow : (2:ℚ) ^ (d : ℤ) * 2 ^ s = 2 ^ t := by
      rw [← zpow_add₀ (by norm_num : (2:ℚ) ≠ 0)]
      congr 1
      omega
    have hqd : ((n : ℚ) * 2 ^ t) / 2 ^ s = ((n * 2 ^ d : ℤ) : ℚ) := by
      rw [div_eq_iff (ne_of_gt (show (0:ℚ) < 2 ^ s by positivity))]
      push_cast
      rw [mul_assoc, ← zpow_natCast (2:ℚ) d, hpow]
    have hr : ((rne (((n : ℚ) * 2 ^ t) / 2 ^ s) : ℚ)) * 2 ^ s = (n : ℚ) * 2 ^ t := by
      rw [hqd, rne_intCast]
      push_cast
      rw [mul_assoc, ← zpow_natCast (2:ℚ) d, hpow]
    rw [hr]
    rw [if_neg]
    rw [not_le]
    calc |(n : ℚ) * 2 ^ t| < 2 ^ ((p : ℤ) + t) := hqlt
      _ ≤ 2 ^ (b + 1) := zpow_le_zpow_right₀ (by norm_num) hb

/-- Format rounding is an odd function. -/
theorem roundToFmt_neg (p : ℕ) (a b : ℤ) (q : ℚ) :
    roundToFmt p a b (-q) = (roundToFmt p a b q).neg := by
  rcases eq_or_ne q 0 with rfl | hq0
  · rw [neg_zero, roundToFmt_zero]
    show roundToFmt p a b 0 = Fl.finite (-0)
    rw [neg_zero, roundToFmt_zero]
  · have hnq0 : -q ≠ 0 := neg_ne_zero.mpr hq0
    simp only [roundToFmt, if_neg hq0, if_neg hnq0, abs_neg]
    set s : ℤ := max a (Int.log 2 |q| + 1 - p) with hs
    have hrn : rne (-q / 2 ^ s) = -rne (q / 2 ^ s) := by
      rw [neg_div, rne_neg]
    rw [hrn]
    push_cast
    rw [neg_mul, abs_neg]
    by_cases hC : 2 ^ (b + 1) ≤ |(rne (q / 2 ^ s) : ℚ) * 2 ^ s|
    · rw [if_pos hC, if_pos hC]
      rcases lt_trichotomy q 0 with hc | hc | hc
      · rw [if_pos (by linarith : (0:ℚ) < -q), if_neg (by linarith : ¬ (0:ℚ) < q)]
        rfl
      · exact absurd hc hq0
      · rw [if_neg (by linarith : ¬ (0:ℚ) < -q), if_pos hc]
        rfl
    · rw [if_neg hC, if_neg hC]
      rfl

/-- Format rounding of a non-negative value is positive infinity or a
non-negative finite value. -/
theorem roundToFmt_nonneg (p : ℕ) (a b : ℤ) (q : ℚ) (h : 0 ≤ q) :
    roundToFmt p a b q = Fl.pinf ∨
      ∃ r : ℚ, 0 ≤ r ∧ roundToFmt p a b q = .finite r := by
  rcases eq_or_ne q 0 with rfl | hq0
  · exact Or.inr ⟨0, le_refl 0, roundToFmt_zero p a b⟩
  · have hqpos : 0 < q := lt_of_le_of_ne h (Ne.symm hq0)
    simp only [roundToFmt, if_neg hq0]
    set s : ℤ := max a (Int.log 2 |q| + 1 - p) with hs
    have hr : (0:ℚ) ≤ (rne (q / 2 ^ s) : ℚ) * 2 ^ s := by
      apply mul_nonneg _ (by positivity)
      have := rne_nonneg (q / 2 ^ s) (by positivity)
      exact_mod_cast this
    by_cases h1 : 2 ^ (b + 1) ≤ |(rne (q / 2 ^ s) : ℚ) * 2 ^ s|
    · rw [if_pos h1, if_pos hqpos]
      exact Or.inl rfl
    · rw [if_neg h1]
      exact Or.inr ⟨_, hr, rfl⟩

/-- Characterization of the saturated ceiling log: on the interval
(2^(e-1), 2^e] the encoder exponent is e, for e inside the i32 range. -/
theorem ceilLog2sat_eq (x : ℚ) (e : ℤ) (he1 : (2:ℚ) ^ (e - 1) < |x|)
    (he2 : |x| ≤ 2 ^ e) (hlo : -(2 ^ 31) ≤ e) (hhi : e ≤ 2 ^ 31 - 1) :
    ceilLog2sat x = e := by
  have hx0 : x ≠ 0 := by
    intro h
    rw [h, abs_zero] at he1
    exact absurd he1 (not_lt.mpr (by positivity))
  have habs : 0 < |x| := lt_trans (by positivity) he1
  have h1 : Int.clog 2 |x| ≤ e :=
    (Int.le_zpow_iff_clog_le (by norm_num) habs).mp (by exact_mod_cast he2)
  have h2 : e - 1 < Int.clog 2 |x| :=
    (Int.zpow_lt_iff_lt_clog (by norm_num) habs).mp (by exact_mod_cast he1)
  have hc : Int.clog 2 |x| = e := by omega
  unfold ceilLog2sat
  rw [if_neg hx0, hc]
  omega

theorem ceilLog2sat_neg (x : ℚ) : ceilLog2sat (-x) = ceilLog2sat x := by
  simp only [ceilLog2sat, abs_neg, neg_eq_zero]

/-- Evaluation of the 32-bit encoder mantissa when the scaled input is exactly
an integer n of at most 23 bits and the exponent is moderate: every
floating-point step of the source is then exact. -/
theorem f32m0_eval (x : ℚ) (e n : ℤ) (he1 : (2:ℚ) ^ (e - 1) < |x|)
    (he2 : |x| ≤ 2 ^ e) (helo : -100 ≤ e) (hehi : e ≤ 100)
    (hn : x * 2 ^ (23 - e) = (n : ℚ)) (hnb : |n| ≤ 2 ^ 23) :
    f32_to_1750a_m0 x = n ∧ ceilLog2sat x = e := by
  have hna := abs_le.mp hnb
  have hcl : ceilLog2sat x = e := ceilLog2sat_eq x e he1 he2 (by omega) (by omega)
  have hw : wrap32 (23 - e) = 23 - e := by
    unfold wrap32
    rw [Int.emod_eq_of_lt (by omega) (by omega)]
    ring
  have hp : pow2f32 (23 - e) = .finite (2 ^ (23 - e)) := by
    unfold pow2f32
    rw [if_neg (by omega), if_neg (by omega)]
  have hex : roundToFmt 24 (-149) 127 ((n : ℚ)) = .finite ((n : ℚ)) := by
    have h0 := roundToFmt_exact 24 (-149) 127 0 n
      (abs_lt.mpr ⟨by omega, by omega⟩) (by omega) (by omega)
    simpa using h0
  unfold f32_to_1750a_m0
  rw [hcl, hw, hp, Fl.mul_finite_finite, hn, hex]
  have hrr : rustRoundFl (.finite ((n : ℚ))) = .finite (rustRoundQ ((n : ℚ))) := rfl
  rw [hrr, rustRoundQ_intCast]
  exact ⟨castI32sat_intCast n (by omega) (by omega), rfl⟩

/-- Evaluation of the 16-bit encoder mantissa under the same exactness
conditions. -/
theorem f16m0_eval (x : ℚ) (e n : ℤ) (he1 : (2:ℚ) ^ (e - 1) < |x|)
    (he2 : |x| ≤ 2 ^ e) (helo : -100 ≤ e) (hehi : e ≤ 100)
    (hn : x * 2 ^ (9 - e) = (n : ℚ)) (hnb : |n| ≤ 2 ^ 23) :
    f16_to_1750a_m0 x = n ∧ ceilLog2sat x = e := by
  have hna := abs_le.mp hnb
  have hcl : ceilLog2sat x = e := ceilLog2sat_eq x e he1 he2 (by omega) (by omega)
  have hw : wrap32 (9 - e) = 9 - e := by
    unfold wrap32
    rw [Int.emod_eq_of_lt (by omega) (by omega)]
    ring
  have hp : pow2f32 (9 - e) = .finite (2 ^ (9 - e)) := by
    unfold pow2f32
    rw [if_neg (by omega), if_neg (by omega)]
  have hex : roundToFmt 24 (-149) 127 ((n : ℚ)) = .finite ((n : ℚ)) := by
    have h0 := roundToFmt_exact 24 (-149) 127 0 n
      (abs_lt.mpr ⟨by omega, by omega⟩) (by omega) (by omega)
    simpa using h0
  unfold f16_to_1750a_m0
  rw [hcl, hw, hp, Fl.mul_finite_finite, hn, hex]
  have hrr : rustRoundFl (.finite ((n : ℚ))) = .finite (rustRoundQ ((n : ℚ))) := rfl
  rw [hrr, rustRoundQ_intCast]
  exact ⟨castI32sat_intCast n (by omega) (by omega), rfl⟩

/-- Evaluation of the 48-bit encoder mantissa under the same exactness
conditions, in the f64 format. -/
theorem f48m0_eval (x : ℚ) (e n : ℤ) (he1 : (2:ℚ) ^ (e - 1) < |x|)
    (he2 : |x| ≤ 2 ^ e) (helo : -100 ≤ e) (hehi : e ≤ 100)
    (hn : x * 2 ^ (39 - e) = (n : ℚ)) (hnb : |n| ≤ 2 ^ 39) :
    f48_to_1750a_m0 x = n ∧ ceilLog2sat x = e := by
  have hna := abs_le.mp hnb
  have hcl : ceilLog2sat x = e := ceilLog2sat_eq x e he1 he2 (by omega) (by omega)
  have hw : wrap32 (39 - e) = 39 - e := by
    unfold wrap32
    rw [Int.emod_eq_of_lt (by omega) (by omega)]
    ring
  have hp : pow2f64 (39 - e) = .finite (2 ^ (39 - e)) := by
    unfold pow2f64
    rw [if_neg (by omega), if_neg (by omega)]
  have hex : roundToFmt 53 (-1074) 1023 ((n : ℚ)) = .finite ((n : ℚ)) := by
    have h0 := roundToFmt_exact 53 (-1074) 1023 0 n
      (abs_lt.mpr ⟨by omega, by omega⟩) (by omega) (by omega)
    simpa using h0
  unfold f48_to_1750a_m0
  rw [hcl, hw, hp, Fl.mul_finite_finite, hn, hex]
  have hrr : rustRoundFl (.finite ((n : ℚ))) = .finite (rustRoundQ ((n : ℚ))) := rfl
  rw [hrr, rustRoundQ_intCast]
  exact ⟨castI64sat_intCast n (by omega) (by omega), rfl⟩

/-- The 16-bit decoder computes the exact product mantissa * 2^(exponent-9)
in f32 (both factors and the product are exactly representable) and then
narrows it to f16. -/
theorem m1750a_to_16flt_eq (w : ℕ) :
    m1750a_to_16flt w = roundToFmt 11 (-24) 15
      ((((w >>> 6) &&& 0x3FF : ℕ) : ℚ) * 2 ^ ((((w &&& 0x3F : ℕ) : ℤ)) - 9)) := by
  have hm : (w >>> 6) &&& 0x3FF ≤ 1023 := Nat.and_le_right
  have he : w &&& 0x3F ≤ 63 := Nat.and_le_right
  have hmz : (((w >>> 6) &&& 0x3FF : ℕ) : ℤ) ≤ 1023 := by exact_mod_cast hm
  have hmz0 : 0 ≤ (((w >>> 6) &&& 0x3FF : ℕ) : ℤ) := Int.natCast_nonneg _
  have hez : ((w &&& 0x3F : ℕ) : ℤ) ≤ 63 := by exact_mod_cast he
  have hez0 : 0 ≤ ((w &&& 0x3F : ℕ) : ℤ) := Int.natCast_nonneg _
  unfold m1750a_to_16flt
  have hp : pow2f32 (((w &&& 0x3F : ℕ) : ℤ) - 9) =
      .finite (2 ^ (((w &&& 0x3F : ℕ) : ℤ) - 9)) := by
    unfold pow2f32
    rw [if_neg (by omega), if_neg (by omega)]
  rw [hp, Fl.mul_finite_finite]
  have hcast : (((w >>> 6) &&& 0x3FF : ℕ) : ℚ) =
      (((((w >>> 6) &&& 0x3FF : ℕ) : ℤ)) : ℚ) := by push_cast; rfl
  have hex : roundToFmt 24 (-149) 127
      ((((w >>> 6) &&& 0x3FF : ℕ) : ℚ) * 2 ^ (((w &&& 0x3F : ℕ) : ℤ) - 9)) =
      .finite ((((w >>> 6) &&& 0x3FF : ℕ) : ℚ) *
        2 ^ (((w &&& 0x3F : ℕ) : ℤ) - 9)) := by
    rw [hcast]
    exact roundToFmt_exact 24 (-149) 127 (((w &&& 0x3F : ℕ) : ℤ) - 9)
      (((w >>> 6) &&& 0x3FF : ℕ) : ℤ)
      (by rw [abs_of_nonneg hmz0]; omega) (by omega) (by omega)
  rw [hex]
  rfl


/-- The 48-bit decoder is exact: every f64 operation it performs stays inside
the 53-bit dyadic range, so the result is the finite rational decode48val. -/
theorem m1750a_to_48flt_eq (w : ℕ) : m1750a_to_48flt w = .finite (decode48val w) := by
  have hm1 : (w >>> 24) &&& 0xFFFFFF ≤ 16777215 := Nat.and_le_right
  have hm2 : w &&& 0xFFFF ≤ 65535 := Nat.and_le_right
  have he : (w >>> 16) &&& 0xFF ≤ 255 := Nat.and_le_right
  have hm1z : (((w >>> 24) &&& 0xFFFFFF : ℕ) : ℤ) ≤ 16777215 := by exact_mod_cast hm1
  have hm1z0 : 0 ≤ (((w >>> 24) &&& 0xFFFFFF : ℕ) : ℤ) := Int.natCast_nonneg _
  have hm2z : ((w &&& 0xFFFF : ℕ) : ℤ) ≤ 65535 := by exact_mod_cast hm2
  have hm2z0 : 0 ≤ ((w &&& 0xFFFF : ℕ) : ℤ) := Int.natCast_nonneg _
  have hez : (((w >>> 16) &&& 0xFF : ℕ) : ℤ) ≤ 255 := by exact_mod_cast he
  have hez0 : 0 ≤ (((w >>> 16) &&& 0xFF : ℕ) : ℤ) := Int.natCast_nonneg _
  simp only [m1750a_to_48flt]
  have hp1 : pow2f64 ((((w >>> 16) &&& 0xFF : ℕ) : ℤ) - 23) =
      .finite (2 ^ ((((w >>> 16) &&& 0xFF : ℕ) : ℤ) - 23)) := by
    unfold pow2f64
    rw [if_neg (by omega), if_neg (by omega)]
    rfl
  have hp2 : pow2f64 ((((w >>> 16) &&& 0xFF : ℕ) : ℤ) - 39) =
      .finite (2 ^ ((((w >>> 16) &&& 0xFF : ℕ) : ℤ) - 39)) := by
    unfold pow2f64
    rw [if_neg (by omega), if_neg (by omega)]
    rfl
  rw [hp1, hp2, Fl.mul_finite_finite, Fl.mul_finite_finite]
  have hc1 : (((w >>> 24) &&& 0xFFFFFF : ℕ) : ℚ) =
      (((((w >>> 24) &&& 0xFFFFFF : ℕ) : ℤ)) : ℚ) := by push_cast; rfl
  have hc2 : ((w &&& 0xFFFF : ℕ) : ℚ) = ((((w &&& 0xFFFF : ℕ) : ℤ)) : ℚ) := by
    push_cast; rfl
  have hex1 : roundToFmt 53 (-1074) 1023
      ((((w >>> 24) &&& 0xFFFFFF : ℕ) : ℚ) *
        2 ^ ((((w >>> 16) &&& 0xFF : ℕ) : ℤ) - 23)) =
      .finite ((((w >>> 24) &&& 0xFFFFFF : ℕ) : ℚ) *
        2 ^ ((((w >>> 16) &&& 0xFF : ℕ) : ℤ) - 23)) := by
    rw [hc1]
    exact roundToFmt_exact 53 (-1074) 1023 ((((w >>> 16) &&& 0xFF : ℕ) : ℤ) - 23)
      (((w >>> 24) &&& 0xFFFFFF : ℕ) : ℤ)
      (by rw [abs_of_nonneg hm1z0]; omega) (by omega) (by omega)
  have hex2 : roundToFmt 53 (-1074) 1023
      (((w &&& 0xFFFF : ℕ) : ℚ) * 2 ^ ((((w >>> 16) &&& 0xFF : ℕ) : ℤ) - 39)) =
      .finite (((w &&& 0xFFFF : ℕ) : ℚ) *
        2 ^ ((((w >>> 16) &&& 0xFF : ℕ) : ℤ) - 39)) := by
    rw [hc2]
    exact roundToFmt_exact 53 (-1074) 1023 ((((w >>> 16) &&& 0xFF : ℕ) : ℤ) - 39)
      ((w &&& 0xFFFF : ℕ) : ℤ)
      (by rw [abs_of_nonneg hm2z0]; omega) (by omega) (by omega)
  rw [hex1, hex2, Fl.add_finite_finite]
  have hsum : (((w >>> 24) &&& 0xFFFFFF : ℕ) : ℚ) *
        2 ^ ((((w >>> 16) &&& 0xFF : ℕ) : ℤ) - 23) +
      ((w &&& 0xFFFF : ℕ) : ℚ) * 2 ^ ((((w >>> 16) &&& 0xFF : ℕ) : ℤ) - 39) =
      (((((w >>> 24) &&& 0xFFFFFF : ℕ) : ℤ) * 65536 +
        ((w &&& 0xFFFF : ℕ) : ℤ) : ℤ) : ℚ) *
        ((2:ℚ)) ^ ((((w >>> 16) &&& 0xFF : ℕ) : ℤ) - 39) := by
    have hsplit : ((2:ℚ)) ^ ((((w >>> 16) &&& 0xFF : ℕ) : ℤ) - 23) =
        65536 * ((2:ℚ)) ^ ((((w >>> 16) &&& 0xFF : ℕ) : ℤ) - 39) := by
      have h0 : ((2:ℚ)) ^ ((((w >>> 16) &&& 0xFF : ℕ) : ℤ) - 23) =
          ((2:ℚ)) ^ ((16:ℤ)) * ((2:ℚ)) ^ ((((w >>> 16) &&& 0xFF : ℕ) : ℤ) - 39) := by
        rw [← zpow_add₀ (by norm_num : (2:ℚ) ≠ 0)]
        congr 1
        omega
      rw [h0]
      norm_num
    push_cast
    rw [hsplit]
    ring
  rw [hsum]
  have hexs := roundToFmt_exact 53 (-1074) 1023
    ((((w >>> 16) &&& 0xFF : ℕ) : ℤ) - 39)
    ((((w >>> 24) &&& 0xFFFFFF : ℕ) : ℤ) * 65536 + ((w &&& 0xFFFF : ℕ) : ℤ))
    (by rw [abs_of_nonneg (by omega)]; omega) (by omega) (by omega)
  rw [hexs, ← hsum]
  unfold decode48val
  rfl

/-- Rounding an f32 product that lies in the mantissa window (2^22, 2^23]
yields a finite value in the same window (the window is closed under
round-to-nearest at ulp one half). -/
theorem roundF32_range (v : ℚ) (h1 : (4194304:ℚ) < v) (h2 : v ≤ 8388608) :
    ∃ r : ℚ, roundToFmt 24 (-149) 127 v = .finite r ∧
      (4194304:ℚ) ≤ r ∧ r ≤ 8388608 := by
  have hvpos : (0:ℚ) < v := by linarith
  have hv0 : v ≠ 0 := ne_of_gt hvpos
  rcases eq_or_lt_of_le h2 with heq | hlt
  · refine ⟨v, ?_, by linarith, h2⟩
    have hv : v = ((8388608:ℤ) : ℚ) * 2 ^ (0:ℤ) := by rw [heq]; norm_num
    rw [hv]
    exact roundToFmt_exact 24 (-149) 127 0 8388608 (by norm_num) (by norm_num)
      (by norm_num)
  · have habs : |v| = v := abs_of_pos hvpos
    have hpow23 : ((2:ℕ):ℚ) ^ (23:ℤ) = 8388608 := by norm_num
    have hpow22 : ((2:ℕ):ℚ) ^ (22:ℤ) = 4194304 := by norm_num
    have hup : Int.log 2 v < 23 :=
      (Int.lt_zpow_iff_log_lt (by norm_num) hvpos).mp (by rw [hpow23]; linarith)
    have hlo : (22:ℤ) ≤ Int.log 2 v :=
      (Int.zpow_le_iff_le_log (by norm_num) hvpos).mp (by rw [hpow22]; linarith)
    have hL : Int.log 2 v = 22 := by omega
    simp only [roundToFmt, if_neg hv0, habs, hL]
    have hm : max (-149 : ℤ) (22 + 1 - ((24:ℕ):ℤ)) = -1 := by norm_num
    rw [hm]
    have hdiv : v / (2:ℚ) ^ (-1:ℤ) = 2 * v := by
      have hb : (2:ℚ) ^ (-1:ℤ) = 1/2 := by norm_num
      rw [hb]
      ring
    rw [hdiv]
    have hk1 : (8388607:ℤ) < rne (2 * v) := by
      have := le_rne (2 * v)
      have hq : ((8388607:ℤ) : ℚ) < (rne (2 * v) : ℚ) := by
        push_cast
        linarith
      exact_mod_cast hq
    have hk2 : rne (2 * v) ≤ 16777216 := by
      have hle := rne_le (2 * v)
      have hq : ((rne (2 * v)) : ℚ) < ((16777217:ℤ) : ℚ) := by
        push_cast
        linarith
      have hz : rne (2 * v) < 16777217 := by exact_mod_cast hq
      omega
    have hk1z : (8388608:ℤ) ≤ rne (2 * v) := by omega
    have hk1q : (8388608:ℚ) ≤ ((rne (2 * v)) : ℚ) := by exact_mod_cast hk1z
    have hk2q : ((rne (2 * v)) : ℚ) ≤ 16777216 := by exact_mod_cast hk2
    have hb : (2:ℚ) ^ (-1:ℤ) = 1/2 := by norm_num
    have hover : ¬ ((2:ℚ) ^ ((127:ℤ) + 1) ≤ |((rne (2 * v)) : ℚ) * 2 ^ (-1:ℤ)|) := by
      rw [not_le]
      have habs2 : |((rne (2 * v)) : ℚ) * 2 ^ (-1:ℤ)| =
          ((rne (2 * v)) : ℚ) * 2 ^ (-1:ℤ) := by
        apply abs_of_pos
        apply mul_pos (by linarith) (by positivity)
      rw [habs2, hb]
      have hc : (2:ℚ) ^ ((127:ℤ) + 1) =
          340282366920938463463374607431768211456 := by norm_num
      rw [hc]
      linarith
    rw [if_neg hover]
    refine ⟨((rne (2 * v)) : ℚ) * 2 ^ (-1:ℤ), rfl, ?_, ?_⟩
    · rw [hb]
      linarith
    · rw [hb]
      linarith

theorem lor_eq_add_of_lt (a b k : ℕ) (hb : b < 2 ^ k) :
    (2 ^ k * a) ||| b = 2 ^ k * a + b := (Nat.mul_add_lt_is_or hb a).symm

theorem lor_high_bit_absorb (A : ℕ) (h1 : 2 ^ 31 ≤ A) (h2 : A < 2 ^ 32) :
    A ||| 2 ^ 31 = A := by
  have hA : A = 2 ^ 31 * 1 + (A - 2 ^ 31) := by omega
  have hu : A - 2 ^ 31 < 2 ^ 31 := by omega
  rw [hA, ← lor_eq_add_of_lt 1 (A - 2 ^ 31) 31 hu, Nat.lor_assoc, Nat.lor_comm (A - 2 ^ 31),
    ← Nat.lor_assoc, mul_one, Nat.or_self]

theorem pack32_fields (K E : ℕ) (hK : K < 2 ^ 24) (hE : E < 2 ^ 8) :
    specExpField32 (2 ^ 8 * K + E) = E ∧ specManField32 (2 ^ 8 * K + E) = K := by
  constructor
  · unfold specExpField32
    have hmask : (0xFF : ℕ) = 2 ^ 8 - 1 := by norm_num
    rw [hmask, Nat.and_pow_two_sub_one_eq_mod, Nat.mul_add_mod, Nat.mod_eq_of_lt hE]
  · unfold specManField32
    rw [Nat.shiftRight_eq_div_pow]
    have hmask : (0xFFFFFF : ℕ) = 2 ^ 24 - 1 := by norm_num
    rw [hmask, Nat.and_pow_two_sub_one_eq_mod, Nat.mul_add_div (by norm_num),
      Nat.div_eq_of_lt hE, Nat.add_zero, Nat.mod_eq_of_lt hK]

theorem specSignBit32_zero (W : ℕ) (h : W < 2 ^ 31) : specSignBit32 W = 0 := by
  unfold specSignBit32
  rw [Nat.shiftRight_eq_div_pow, Nat.div_eq_of_lt h]
  rfl

theorem specSignBit32_one (W : ℕ) (h1 : 2 ^ 31 ≤ W) (h2 : W < 2 ^ 32) :
    specSignBit32 W = 1 := by
  unfold specSignBit32
  rw [Nat.shiftRight_eq_div_pow]
  have hdiv : W / 2 ^ 31 = 1 := by omega
  rw [hdiv]
  rfl

/-- C3 (code bug in decoder): the claim says every decoder sign-extends the
extracted exponent field, so the 48-bit word 0x0000_01FF_0000 (mantissa 1,
exponent field 0xFF) would decode with exponent -1 to 2^(-24).  The code
instead reads the field as the unsigned value 255 and returns 2^232. -/
theorem c3_decoder_exponent_unsigned :
    m1750a_to_48flt 0x1FF0000 = Fl.finite (2 ^ 232) := by
  rw [m1750a_to_48flt_eq]
  have e1 : ((0x1FF0000 : ℕ) >>> 24) &&& 0xFFFFFF = 1 := by decide
  have e2 : (0x1FF0000 : ℕ) &&& 0xFFFF = 0 := by decide
  have e3 : ((0x1FF0000 : ℕ) >>> 16) &&& 0xFF = 255 := by decide
  unfold decode48val
  rw [e1, e2, e3]
  have hz : ((255:ℕ) : ℤ) - 23 = ((232:ℕ) : ℤ) := by norm_num
  rw [hz]
  push_cast
  norm_num

theorem ceilLog2sat_zero : ceilLog2sat 0 = -(2 ^ 31) := by decide

theorem rustRoundQ_zero : rustRoundQ 0 = 0 := by
  have h := rustRoundQ_intCast 0
  simpa using h

theorem f16m0_zero : f16_to_1750a_m0 0 = 0 := by
  unfold f16_to_1750a_m0
  rw [ceilLog2sat_zero]
  have hw : wrap32 (9 - -(2 ^ 31)) = -2147483639 := by decide
  rw [hw]
  have hp : pow2f32 (-2147483639) = .finite 0 := by decide
  rw [hp, Fl.mul_finite_finite]
  have h00 : (0:ℚ) * 0 = 0 := by norm_num
  rw [h00, roundToFmt_zero]
  have hr : rustRoundFl (.finite 0) = .finite 0 := by
    show Fl.finite (rustRoundQ 0) = Fl.finite 0
    rw [rustRoundQ_zero]
  rw [hr]
  have hc := castI32sat_intCast 0 (by norm_num) (by norm_num)
  simpa using hc

/-- C4: encoding exactly 0.0 returns the all-zero word at every width; the
32- and 48-bit encoders special-case it, while the 16-bit encoder reaches the
same result through saturated arithmetic on log2(0) = minus infinity. -/
theorem c4_encode_zero :
    f16_to_1750a 0 = 0 ∧ f32_to_1750a 0 = 0 ∧ f48_to_1750a 0 = 0 := by
  refine ⟨?_, by simp [f32_to_1750a], by simp [f48_to_1750a]⟩
  simp only [f16_to_1750a, f16_to_1750a_me, f16m0_zero, ceilLog2sat_zero]
  norm_num
  have h2 : toU16 (-2147483648) = 0 := by decide
  rw [h2]
  decide

/-- C5 (amended): of the three decoders only the 48-bit one always returns a
finite value; it is total over all inputs, with the top container bits
masked away. -/
theorem c5_decode48_total_finite :
    ∀ w : ℕ, ∃ q : ℚ, m1750a_to_48flt w = Fl.finite q :=
  fun w => ⟨decode48val w, m1750a_to_48flt_eq w⟩

/-- C5 (counterexample to the claim as stated): the 32-bit decoder is not
finite-valued on every word; on 0x000000FF the mantissa is zero and the
exponent field 255 makes powi overflow to infinity, so the product
0 * infinity is NaN. -/
theorem c5_decoder_nonfinite_counterexample :
    m1750a_to_32flt 0xFF = Fl.nan := by decide

/-- C6: the 16-bit and 48-bit decoders never produce a negative value: their
mantissa fields are read unsigned and the 48-bit sign bit is never consulted,
so every decoded value is non-negative (possibly plus infinity for 16-bit). -/
theorem c6_decoders_nonneg :
    ∀ w : ℕ, (m1750a_to_16flt w).Nonneg ∧ (m1750a_to_48flt w).Nonneg := by
  intro w
  constructor
  · rw [m1750a_to_16flt_eq]
    have hvpos : (0:ℚ) ≤ (((w >>> 6) &&& 0x3FF : ℕ) : ℚ) *
        2 ^ ((((w &&& 0x3F : ℕ) : ℤ)) - 9) := by positivity
    rcases roundToFmt_nonneg 11 (-24) 15 _ hvpos with h | ⟨r, hr, h⟩
    · rw [h]
      exact trivial
    · rw [h]
      exact hr
  · rw [m1750a_to_48flt_eq]
    show (0:ℚ) ≤ decode48val w
    unfold decode48val
    positivity

/-- C9: the 48-bit decoder depends only on the low 48 bits of its container;
all three extracted fields ignore bits 48 and above. -/
theorem c9_decode48_low48 :
    ∀ w : ℕ, m1750a_to_48flt w = m1750a_to_48flt (w % 2 ^ 48) := by
  intro w
  have h1 : ((w % 2 ^ 48) >>> 24) &&& 0xFFFFFF = (w >>> 24) &&& 0xFFFFFF := by
    rw [Nat.shiftRight_eq_div_pow, Nat.shiftRight_eq_div_pow]
    have hmask : (0xFFFFFF : ℕ) = 2 ^ 24 - 1 := by norm_num
    rw [hmask, Nat.and_pow_two_sub_one_eq_mod, Nat.and_pow_two_sub_one_eq_mod]
    have h48 : (2:ℕ) ^ 48 = 2 ^ 24 * 2 ^ 24 := by norm_num
    rw [h48, Nat.mod_mul_right_div_self, Nat.mod_mod_of_dvd _ (dvd_refl _)]
  have h2 : (w % 2 ^ 48) &&& 0xFFFF = w &&& 0xFFFF := by
    have hmask : (0xFFFF : ℕ) = 2 ^ 16 - 1 := by norm_num
    rw [hmask, Nat.and_pow_two_sub_one_eq_mod, Nat.and_pow_two_sub_one_eq_mod,
      Nat.mod_mod_of_dvd _ (by norm_num : (2:ℕ) ^ 16 ∣ 2 ^ 48)]
  have h3 : ((w % 2 ^ 48) >>> 16) &&& 0xFF = (w >>> 16) &&& 0xFF := by
    rw [Nat.shiftRight_eq_div_pow, Nat.shiftRight_eq_div_pow]
    have hmask : (0xFF : ℕ) = 2 ^ 8 - 1 := by norm_num
    rw [hmask, Nat.and_pow_two_sub_one_eq_mod, Nat.and_pow_two_sub_one_eq_mod]
    have h48 : (2:ℕ) ^ 48 = 2 ^ 16 * 2 ^ 32 := by norm_num
    rw [h48, Nat.mod_mul_right_div_self,
      Nat.mod_mod_of_dvd _ (by norm_num : (2:ℕ) ^ 8 ∣ 2 ^ 32)]
  simp only [m1750a_to_48flt]
  rw [h1, h2, h3]

/-- C1 (code bug in the decoder): the round-trip claim fails inside the
representable range.  Encoding 0.25 stores the two-complement exponent -1 as
field value 0xFF, but the decoder reads that field unsigned as +255, so the
reconstruction multiplies 4194304 by 2^232 and overflows f32 to plus
infinity instead of recovering 0.25. -/
theorem c1_roundtrip_fails_at_quarter :
    f32_to_1750a (1/4) = 0x400000FF ∧
      m1750a_to_32flt 0x400000FF = Fl.pinf := by
  constructor
  · have hx0 : ¬ ((1:ℚ)/4) = 0 := by norm_num
    obtain ⟨hm0, hcl⟩ := f32m0_eval (1/4) (-2) 8388608
      (by rw [abs_of_pos (by norm_num : (0:ℚ) < 1/4)]; norm_num)
      (by rw [abs_of_pos (by norm_num : (0:ℚ) < 1/4)]; norm_num)
      (by norm_num) (by norm_num)
      (by push_cast; norm_num) (by norm_num)
    have hme : f32_to_1750a_me (1/4) = (4194304, -1) := by
      simp only [f32_to_1750a_me]
      rw [hm0, hcl]
      norm_num
    simp only [f32_to_1750a, hme]
    rw [if_neg hx0, if_neg (by norm_num : ¬ ((1:ℚ)/4) < 0)]
    decide
  · decide

/-- C2 (counterexample to the claim as stated): at input 1.0 the 16-bit
encoder computes the rounded mantissa 512 = 2^9, exactly the value the claim
says must be halved with the exponent incremented; the code compares against
32768 instead and packs (512, 0) unchanged. -/
theorem c2_boundary_counterexample :
    f16_to_1750a_m0 1 = 512 ∧ f16_to_1750a_me 1 = (512, 0) := by
  obtain ⟨hm0, hcl⟩ := f16m0_eval 1 0 512
    (by norm_num) (by norm_num) (by norm_num) (by norm_num)
    (by norm_num) (by norm_num)
  refine ⟨hm0, ?_⟩
  simp only [f16_to_1750a_me]
  rw [hm0, hcl]
  norm_num

/-- C2 (amended): the 32- and 48-bit encoders halve the mantissa and bump the
exponent exactly when the rounded mantissa equals 2^F (8388608 for F = 23,
549755813888 for F = 39); the 16-bit encoder compares against 32768 = 2^15
rather than 512 = 2^9, so a rounded mantissa of exactly 512 is packed
unchanged. -/
theorem c2_boundary_amended :
    (∀ x : ℚ, f32_to_1750a_m0 x = 8388608 →
      f32_to_1750a_me x = (4194304, ceilLog2sat x + 1)) ∧
    (∀ x : ℚ, f48_to_1750a_m0 x = 549755813888 →
      f48_to_1750a_me x = (274877906944, ceilLog2sat x + 1)) ∧
    (∀ x : ℚ, f16_to_1750a_m0 x = 512 →
      f16_to_1750a_me x = (512, ceilLog2sat x)) := by
  refine ⟨fun x hx => ?_, fun x hx => ?_, fun x hx => ?_⟩
  · simp only [f32_to_1750a_me]
    rw [hx]
    norm_num
  · simp only [f48_to_1750a_me]
    rw [hx]
    norm_num
  · simp only [f16_to_1750a_me]
    rw [hx]
    norm_num

/-- C2 (witness): the hypotheses of the amended boundary claim are realized
at input 1.0 for all three widths. -/
theorem c2_boundary_amended_witness :
    (f32_to_1750a_m0 1 = 8388608 ∧ f32_to_1750a_me 1 = (4194304, 1)) ∧
    (f48_to_1750a_m0 1 = 549755813888 ∧
      f48_to_1750a_me 1 = (274877906944, 1)) ∧
    (f16_to_1750a_m0 1 = 512 ∧ f16_to_1750a_me 1 = (512, 0)) := by
  obtain ⟨h32, hcl32⟩ := f32m0_eval 1 0 8388608
    (by norm_num) (by norm_num) (by norm_num) (by norm_num)
    (by norm_num) (by norm_num)
  obtain ⟨h48, hcl48⟩ := f48m0_eval 1 0 549755813888
    (by norm_num) (by norm_num) (by norm_num) (by norm_num)
    (by norm_num) (by norm_num)
  obtain ⟨h16, hcl16⟩ := f16m0_eval 1 0 512
    (by norm_num) (by norm_num) (by norm_num) (by norm_num)
    (by norm_num) (by norm_num)
  refine ⟨⟨h32, ?_⟩, ⟨h48, ?_⟩, ⟨h16, ?_⟩⟩
  · have h := c2_boundary_amended.1 1 h32
    rw [hcl32] at h
    simpa using h
  · have h := c2_boundary_amended.2.1 1 h48
    rw [hcl48] at h
    simpa using h
  · have h := c2_boundary_amended.2.2 1 h16
    rw [hcl16] at h
    simpa using h

/-- C8: the 32-bit encoder satisfies its literal fixtures.  The f32 literal
5.234 denotes exactly 10976494 * 2^(-21), which is the rational fed to the
embedded encoder. -/
theorem c8_fixtures32 :
    f32_to_1750a (10976494/2097152) = 0x53BE7703 ∧
      f32_to_1750a (-1) = 0x80000000 ∧ f32_to_1750a 1 = 0x40000001 := by
  refine ⟨?_, ?_, ?_⟩
  · have hx0 : ¬ ((10976494:ℚ)/2097152) = 0 := by norm_num
    obtain ⟨hm0, hcl⟩ := f32m0_eval (10976494/2097152) 3 5488247
      (by rw [abs_of_pos (by norm_num : (0:ℚ) < 10976494/2097152)]; norm_num)
      (by rw [abs_of_pos (by norm_num : (0:ℚ) < 10976494/2097152)]; norm_num)
      (by norm_num) (by norm_num)
      (by push_cast; norm_num) (by norm_num)
    have hme : f32_to_1750a_me (10976494/2097152) = (5488247, 3) := by
      simp only [f32_to_1750a_me]
      rw [hm0, hcl]
      norm_num
    simp only [f32_to_1750a, hme]
    rw [if_neg hx0, if_neg (by norm_num : ¬ ((10976494:ℚ)/2097152) < 0)]
    decide
  · have hx0 : ¬ ((-1:ℚ)) = 0 := by norm_num
    obtain ⟨hm0, hcl⟩ := f32m0_eval (-1) 0 (-8388608)
      (by norm_num) (by norm_num) (by norm_num) (by norm_num)
      (by push_cast; norm_num) (by norm_num)
    have hme : f32_to_1750a_me (-1) = (-8388608, 0) := by
      simp only [f32_to_1750a_me]
      rw [hm0, hcl]
      norm_num
    simp only [f32_to_1750a, hme]
    rw [if_neg hx0, if_pos (by norm_num : ((-1:ℚ)) < 0)]
    decide
  · have hx0 : ¬ ((1:ℚ)) = 0 := by norm_num
    obtain ⟨hm0, hcl⟩ := f32m0_eval 1 0 8388608
      (by norm_num) (by norm_num) (by norm_num) (by norm_num)
      (by norm_num) (by norm_num)
    have hme : f32_to_1750a_me 1 = (4194304, 1) := by
      simp only [f32_to_1750a_me]
      rw [hm0, hcl]
      norm_num
    simp only [f32_to_1750a, hme]
    rw [if_neg hx0, if_neg (by norm_num : ¬ ((1:ℚ)) < 0)]
    decide

/-- C10: the 16-bit encoder maps 1.0 and -1.0 to the same word 0x8000: the
mantissa 512 of 1.0 and the two-complement mantissa of -1.0 coincide after
the 10-bit mask, so the sign of 1.0 is not recoverable from its encoding. -/
theorem c10_encode16_sign_collision :
    f16_to_1750a 1 = 0x8000 ∧ f16_to_1750a (-1) = 0x8000 ∧ (1 : ℚ) ≠ -1 := by
  refine ⟨?_, ?_, by norm_num⟩
  · obtain ⟨hm0, hcl⟩ := f16m0_eval 1 0 512
      (by norm_num) (by norm_num) (by norm_num) (by norm_num)
      (by norm_num) (by norm_num)
    have hme : f16_to_1750a_me 1 = (512, 0) := by
      simp only [f16_to_1750a_me]
      rw [hm0, hcl]
      norm_num
    simp only [f16_to_1750a, hme]
    decide
  · obtain ⟨hm0, hcl⟩ := f16m0_eval (-1) 0 (-512)
      (by norm_num) (by norm_num) (by norm_num) (by norm_num)
      (by push_cast; norm_num) (by norm_num)
    have hme : f16_to_1750a_me (-1) = (-512, 0) := by
      simp only [f16_to_1750a_me]
      rw [hm0, hcl]
      norm_num
    simp only [f16_to_1750a, hme]
    decide

/-- C7 (counterexample to the claim as stated): at the representative value
1.0 the boundary correction fires for +1.0 but not for -1.0, so the exponent
fields of the two encodings differ (0x01 against 0x00), contradicting the
claimed sign symmetry. -/
theorem c7_sign_symmetry_counterexample :
    f32_to_1750a 1 = 0x40000001 ∧ f32_to_1750a (-1) = 0x80000000 ∧
      specExpField32 0x40000001 ≠ specExpField32 0x80000000 := by
  refine ⟨?_, ?_, by decide⟩
  · obtain ⟨hm0, hcl⟩ := f32m0_eval 1 0 8388608
      (by norm_num) (by norm_num) (by norm_num) (by norm_num)
      (by norm_num) (by norm_num)
    have hme : f32_to_1750a_me 1 = (4194304, 1) := by
      simp only [f32_to_1750a_me]
      rw [hm0, hcl]
      norm_num
    simp only [f32_to_1750a, hme]
    rw [if_neg (by norm_num : ¬ ((1:ℚ)) = 0),
      if_neg (by norm_num : ¬ ((1:ℚ)) < 0)]
    decide
  · obtain ⟨hm0, hcl⟩ := f32m0_eval (-1) 0 (-8388608)
      (by norm_num) (by norm_num) (by norm_num) (by norm_num)
      (by push_cast; norm_num) (by norm_num)
    have hme : f32_to_1750a_me (-1) = (-8388608, 0) := by
      simp only [f32_to_1750a_me]
      rw [hm0, hcl]
      norm_num
    simp only [f32_to_1750a, hme]
    rw [if_neg (by norm_num : ¬ ((-1:ℚ)) = 0),
      if_pos (by norm_num : ((-1:ℚ)) < 0)]
    decide

/-- C7 (amended): sign symmetry of the 32-bit encoder holds for positive x of
moderate exponent that sits at least a factor 1 + 2^(-10) above the
next-lower power of two (inside that sliver the library log2 can round down
to the integer, the program exponent drops by one and the rounded mantissa
2^23 + 1 overflows its field into the sign bit, breaking the symmetry in the
program) and whose rounded mantissa is not exactly 2^23 (the
boundary-correction case, which also breaks the symmetry): the two words
carry the same exponent field, two-complement negated mantissa fields, and
opposite sign bits. -/
theorem c7_sign_symmetry_amended (x : ℚ) (hx : 0 < x)
    (helo : -100 ≤ ceilLog2sat x) (hehi : ceilLog2sat x ≤ 100)
    (hgap : (2:ℚ) ^ (ceilLog2sat x - 1) * (1 + 1/1024) ≤ x)
    (hm : f32_to_1750a_m0 x ≠ 8388608) :
    specExpField32 (f32_to_1750a (-x)) = specExpField32 (f32_to_1750a x) ∧
    specManField32 (f32_to_1750a (-x)) =
      (2 ^ 24 - specManField32 (f32_to_1750a x)) % 2 ^ 24 ∧
    specSignBit32 (f32_to_1750a x) = 0 ∧
    specSignBit32 (f32_to_1750a (-x)) = 1 := by
  set e := ceilLog2sat x with he
  have hx0 : x ≠ 0 := ne_of_gt hx
  have habs : |x| = x := abs_of_pos hx
  have hcl : Int.clog 2 x = e := by
    have he2 := he
    unfold ceilLog2sat at he2
    rw [if_neg hx0, habs] at he2
    omega
  have hxle : x ≤ (2:ℚ) ^ e := by
    have h0 : x ≤ ((2:ℕ):ℚ) ^ Int.clog 2 x := Int.self_le_zpow_clog (by norm_num) x
    rw [hcl] at h0
    exact_mod_cast h0
  have hxgt : (2:ℚ) ^ (e - 1) < x := by
    have hp0 : (0:ℚ) < (2:ℚ) ^ (e - 1) := by positivity
    have hstep : (2:ℚ) ^ (e - 1) < (2:ℚ) ^ (e - 1) * (1 + 1/1024) :=
      (lt_mul_iff_one_lt_right hp0).mpr (by norm_num)
    exact lt_of_lt_of_le hstep hgap
  have hw : wrap32 (23 - e) = 23 - e := by
    unfold wrap32
    rw [Int.emod_eq_of_lt (by omega) (by omega)]
    ring
  have hp : pow2f32 (23 - e) = .finite (2 ^ (23 - e)) := by
    unfold pow2f32
    rw [if_neg (by omega), if_neg (by omega)]
  set v : ℚ := x * 2 ^ (23 - e) with hv
  have hvlo : (4194304:ℚ) < v := by
    have hmul : (2:ℚ) ^ (e - 1) * 2 ^ (23 - e) < v := by
      rw [hv]
      exact mul_lt_mul_of_pos_right hxgt (by positivity)
    have hcollapse : (2:ℚ) ^ (e - 1) * 2 ^ (23 - e) = 4194304 := by
      rw [← zpow_add₀ (by norm_num : (2:ℚ) ≠ 0)]
      have hee : e - 1 + (23 - e) = (22:ℤ) := by ring
      rw [hee]
      norm_num
    linarith
  have hvhi : v ≤ 8388608 := by
    have hmul : v ≤ (2:ℚ) ^ e * 2 ^ (23 - e) := by
      rw [hv]
      exact mul_le_mul_of_nonneg_right hxle (by positivity)
    have hcollapse : (2:ℚ) ^ e * 2 ^ (23 - e) = 8388608 := by
      rw [← zpow_add₀ (by norm_num : (2:ℚ) ≠ 0)]
      have hee : e + (23 - e) = (23:ℤ) := by ring
      rw [hee]
      norm_num
    linarith
  obtain ⟨r, hr, hr1, hr2⟩ := roundF32_range v hvlo hvhi
  obtain ⟨k, hkr⟩ := rustRoundQ_int r
  have hkb1 : (4194304:ℤ) ≤ k := by
    have hle := le_rustRoundQ r
    rw [hkr] at hle
    have hq : ((4194303:ℤ):ℚ) < (k:ℚ) := by push_cast; linarith
    have hz : (4194303:ℤ) < k := by exact_mod_cast hq
    omega
  have hkb2 : k ≤ 8388608 := by
    have hle := rustRoundQ_le r
    rw [hkr] at hle
    have hq : (k:ℚ) < ((8388609:ℤ):ℚ) := by push_cast; linarith
    have hz : k < (8388609:ℤ) := by exact_mod_cast hq
    omega
  have hm0x : f32_to_1750a_m0 x = k := by
    unfold f32_to_1750a_m0
    rw [← he, hw, hp, Fl.mul_finite_finite, ← hv, hr]
    show castI32sat (.finite (rustRoundQ r)) = k
    rw [hkr]
    exact castI32sat_intCast k (by omega) (by omega)
  have hknot : k ≠ 8388608 := fun hk => hm (by rw [hm0x, hk])
  have hm0nx : f32_to_1750a_m0 (-x) = -k := by
    unfold f32_to_1750a_m0
    rw [ceilLog2sat_neg, ← he, hw, hp, Fl.mul_finite_finite]
    have hneg : -x * 2 ^ (23 - e) = -v := by rw [hv]; ring
    rw [hneg, roundToFmt_neg, hr]
    show castI32sat (.finite (rustRoundQ (-r))) = -k
    rw [rustRoundQ_neg, hkr]
    have hc : -((k:ℚ)) = (((-k:ℤ)):ℚ) := by push_cast; ring
    rw [hc]
    exact castI32sat_intCast (-k) (by omega) (by omega)
  have hmex : f32_to_1750a_me x = (k, e) := by
    simp only [f32_to_1750a_me]
    rw [hm0x, ← he, if_neg hknot]
  have hmenx : f32_to_1750a_me (-x) = (-k, e) := by
    simp only [f32_to_1750a_me]
    rw [hm0nx, ceilLog2sat_neg, ← he, if_neg (by omega : ¬ (-k = 8388608))]
  have hxneg : ¬ x < 0 := not_lt.mpr hx.le
  have hnxneg : -x < 0 := neg_lt_zero.mpr hx
  have hnx0 : ¬ (-x = 0) := by simpa using hx0
  have hElt : toU32 e &&& 0xFF < 2 ^ 8 := by
    have hle : toU32 e &&& 0xFF ≤ 0xFF := Nat.and_le_right
    omega
  have hk0 : (0:ℤ) ≤ k := by omega
  have hKeq : ((k.toNat : ℤ)) = k := Int.toNat_of_nonneg hk0
  have hKlo : 4194304 ≤ k.toNat := by omega
  have hKhi : k.toNat < 8388608 := by omega
  have hwx : f32_to_1750a x = 2 ^ 8 * k.toNat + (toU32 e &&& 0xFF) := by
    simp only [f32_to_1750a, hmex]
    rw [if_neg hx0, if_neg hxneg]
    have ht : toU32 k = k.toNat := by
      unfold toU32
      rw [Int.emod_eq_of_lt (by omega) (by omega)]
    rw [ht, Nat.shiftLeft_eq, Nat.mod_eq_of_lt (by omega), Nat.or_zero,
      mul_comm k.toNat (2 ^ 8), lor_eq_add_of_lt _ _ _ hElt]
  have hwnx : f32_to_1750a (-x) =
      2 ^ 8 * (2 ^ 24 - k.toNat) + (toU32 e &&& 0xFF) := by
    simp only [f32_to_1750a, hmenx]
    rw [if_neg hnx0, if_pos hnxneg]
    have ht : toU32 (-k) = 2 ^ 32 - k.toNat := by
      unfold toU32
      have hmod : (-k) % 2 ^ 32 = 2 ^ 32 - k := by omega
      rw [hmod]
      omega
    rw [ht, Nat.shiftLeft_eq]
    have hmod2 : ((2 ^ 32 - k.toNat) * 2 ^ 8) % 2 ^ 32 =
        (2 ^ 24 - k.toNat) * 2 ^ 8 := by omega
    rw [hmod2, mul_comm (2 ^ 24 - k.toNat) (2 ^ 8),
      lor_eq_add_of_lt _ _ _ hElt,
      (show (0x80000000:ℕ) = 2 ^ 31 by norm_num),
      lor_high_bit_absorb _ (by omega) (by omega)]
  rw [hwx, hwnx]
  obtain ⟨hef1, hmf1⟩ := pack32_fields k.toNat (toU32 e &&& 0xFF) (by omega) hElt
  obtain ⟨hef2, hmf2⟩ :=
    pack32_fields (2 ^ 24 - k.toNat) (toU32 e &&& 0xFF) (by omega) hElt
  refine ⟨?_, ?_, ?_, ?_⟩
  · rw [hef1, hef2]
  · rw [hmf1, hmf2]
    omega
  · exact specSignBit32_zero _ (by omega)
  · exact specSignBit32_one _ (by omega) (by omega)

/-- C7 (witness): the amended sign-symmetry hypotheses hold at x = 1.5, which
is a factor 1.5 above the power of two below it and whose rounded mantissa
6291456 is away from the boundary value. -/
theorem c7_sign_symmetry_amended_witness :
    (0 < (3/2:ℚ)) ∧ (-100 ≤ ceilLog2sat (3/2) ∧ ceilLog2sat (3/2) ≤ 100) ∧
    (2:ℚ) ^ (ceilLog2sat (3/2) - 1) * (1 + 1/1024) ≤ 3/2 ∧
    f32_to_1750a_m0 (3/2) ≠ 8388608 ∧
    (specExpField32 (f32_to_1750a (-(3/2))) =
        specExpField32 (f32_to_1750a (3/2)) ∧
      specManField32 (f32_to_1750a (-(3/2))) =
        (2 ^ 24 - specManField32 (f32_to_1750a (3/2))) % 2 ^ 24 ∧
      specSignBit32 (f32_to_1750a (3/2)) = 0 ∧
      specSignBit32 (f32_to_1750a (-(3/2))) = 1) := by
  obtain ⟨hm0, hcl⟩ := f32m0_eval (3/2) 1 6291456
    (by rw [abs_of_pos (by norm_num : (0:ℚ) < 3/2)]; norm_num)
    (by rw [abs_of_pos (by norm_num : (0:ℚ) < 3/2)]; norm_num)
    (by norm_num) (by norm_num)
    (by push_cast; norm_num) (by norm_num)
  have hmne : f32_to_1750a_m0 (3/2) ≠ 8388608 := by
    rw [hm0]
    norm_num
  have hgap : (2:ℚ) ^ (ceilLog2sat (3/2) - 1) * (1 + 1/1024) ≤ 3/2 := by
    rw [hcl]
    norm_num
  exact ⟨by norm_num, ⟨by rw [hcl]; norm_num, by rw [hcl]; norm_num⟩, hgap, hmne,
    c7_sign_symmetry_amended (3/2) (by norm_num) (by rw [hcl]; norm_num)
      (by rw [hcl]; norm_num) hgap hmne⟩
